import Mathlib

/-
Verification of the sequence-alignment engine in `SequenceAnalyzer.py`
(class `SequencesAnalyzer`): Needleman–Wunsch / Smith–Waterman matrix
construction, traceback replay, and the four public operations
(global alignment, local alignment, similarity, edit distance).

Sequences are modelled as `List Char`; the DP matrix `H` (numpy int
matrix) is modelled as a total function `Nat → Nat → Int` whose values
agree with the numpy matrix on all in-range indices; the traceback
matrix (numpy `U5` string matrix holding arrow glyphs, boundary display
letters, and the initial empty string) is modelled by the `TCell` type.
A Python crash (e.g. unpacking the `None` returned by `translateArrow`
for a non-arrow cell) or a non-terminating while-loop is modelled by
`Option`: the fuelled replay returns `none` in exactly those cases.
-/

/-- The gap marker used throughout the analyzer (`'-'` in the source). -/
def gapChar : Char := '-'

/-- Modelled from the spec: the `ScoringSystem` class (file
`ScoringSystem.py`) is imported by `SequenceAnalyzer.py` but is not part
of the sources; per spec §2/§6 it is a pure function mapping an ordered
pair of symbols — either of which (not both) may be the gap marker — to
an integer, determined by three parameters `match`, `mismatch`, `gap`. -/
structure ScoringSystem where
  matchScore : Int
  mismatchScore : Int
  gapScore : Int

/-- Modelled from the spec: `score(x, y)` returns the gap cost when either
argument is the gap marker, the match score when the symbols are equal,
and the mismatch score otherwise. -/
def ScoringSystem.score (s : ScoringSystem) (x y : Char) : Int :=
  if x = gapChar ∨ y = gapChar then s.gapScore
  else if x = y then s.matchScore
  else s.mismatchScore

/-- `ScoringSystem(match=1, mismatch=-1, gap=-1)` — `self.scoring_sys`. -/
def similarityScoring : ScoringSystem := ⟨1, -1, -1⟩

/-- `ScoringSystem(match=0, mismatch=1, gap=1)` — `self.edit_cost_sys`. -/
def editCostScoring : ScoringSystem := ⟨0, 1, 1⟩

/-- Index of the first occurrence of the maximum of a list
(`np.argmax` semantics; `np.argmax` documents that ties return the
first occurrence). Returns 0 on the empty list (never used there). -/
def argmaxIdx : List Int → Nat
  | [] => 0
  | [_] => 0
  | x :: y :: xs =>
    let r := argmaxIdx (y :: xs)
    if x < (y :: xs).getD r 0 then r + 1 else 0

/-- Index of the first occurrence of the minimum of a list
(`np.argmin` semantics). -/
def argminIdx : List Int → Nat
  | [] => 0
  | [_] => 0
  | x :: y :: xs =>
    let r := argminIdx (y :: xs)
    if (y :: xs).getD r 0 < x then r + 1 else 0

theorem argmaxIdx_cons_cons (x y : Int) (xs : List Int) :
    argmaxIdx (x :: y :: xs) =
      if x < (y :: xs).getD (argmaxIdx (y :: xs)) 0
      then argmaxIdx (y :: xs) + 1 else 0 := rfl

theorem argminIdx_cons_cons (x y : Int) (xs : List Int) :
    argminIdx (x :: y :: xs) =
      if (y :: xs).getD (argminIdx (y :: xs)) 0 < x
      then argminIdx (y :: xs) + 1 else 0 := rfl

theorem argmaxIdx_spec (l : List Int) (hl : l ≠ []) :
    argmaxIdx l < l.length ∧
    (∀ k < l.length, l.getD k 0 ≤ l.getD (argmaxIdx l) 0) ∧
    (∀ k < argmaxIdx l, l.getD k 0 < l.getD (argmaxIdx l) 0) := by
  induction l with
  | nil => exact absurd rfl hl
  | cons x t ih =>
    cases t with
    | nil =>
      refine ⟨by simp [argmaxIdx], ?_, ?_⟩
      · intro k hk
        have hk0 : k = 0 := by simpa using hk
        subst hk0
        simp [argmaxIdx]
      · intro k hk
        simp [argmaxIdx] at hk
    | cons y xs =>
      obtain ⟨h1, h2, h3⟩ := ih (by simp)
      rw [argmaxIdx_cons_cons]
      by_cases hx : x < (y :: xs).getD (argmaxIdx (y :: xs)) 0
      · rw [if_pos hx]
        refine ⟨by simpa using h1, ?_, ?_⟩
        · intro k hk
          rw [List.getD_cons_succ]
          cases k with
          | zero => exact le_of_lt (by rwa [List.getD_cons_zero])
          | succ k => rw [List.getD_cons_succ]; exact h2 k (by simpa using hk)
        · intro k hk
          rw [List.getD_cons_succ]
          cases k with
          | zero => rwa [List.getD_cons_zero]
          | succ k => rw [List.getD_cons_succ]; exact h3 k (by omega)
      · rw [if_neg hx]
        push_neg at hx
        refine ⟨by simp, ?_, fun k hk => absurd hk (by omega)⟩
        intro k hk
        rw [List.getD_cons_zero]
        cases k with
        | zero => rw [List.getD_cons_zero]
        | succ k =>
          rw [List.getD_cons_succ]
          exact le_trans (h2 k (by simpa using hk)) hx

theorem argminIdx_spec (l : List Int) (hl : l ≠ []) :
    argminIdx l < l.length ∧
    (∀ k < l.length, l.getD (argminIdx l) 0 ≤ l.getD k 0) ∧
    (∀ k < argminIdx l, l.getD (argminIdx l) 0 < l.getD k 0) := by
  induction l with
  | nil => exact absurd rfl hl
  | cons x t ih =>
    cases t with
    | nil =>
      refine ⟨by simp [argminIdx], ?_, ?_⟩
      · intro k hk
        have hk0 : k = 0 := by simpa using hk
        subst hk0
        simp [argminIdx]
      · intro k hk
        simp [argminIdx] at hk
    | cons y xs =>
      obtain ⟨h1, h2, h3⟩ := ih (by simp)
      rw [argminIdx_cons_cons]
      by_cases hx : (y :: xs).getD (argminIdx (y :: xs)) 0 < x
      · rw [if_pos hx]
        refine ⟨by simpa using h1, ?_, ?_⟩
        · intro k hk
          rw [List.getD_cons_succ]
          cases k with
          | zero => exact le_of_lt (by rwa [List.getD_cons_zero])
          | succ k => rw [List.getD_cons_succ]; exact h2 k (by simpa using hk)
        · intro k hk
          rw [List.getD_cons_succ]
          cases k with
          | zero => rwa [List.getD_cons_zero]
          | succ k => rw [List.getD_cons_succ]; exact h3 k (by omega)
      · rw [if_neg hx]
        push_neg at hx
        refine ⟨by simp, ?_, fun k hk => absurd hk (by omega)⟩
        intro k hk
        rw [List.getD_cons_zero]
        cases k with
        | zero => rw [List.getD_cons_zero]
        | succ k =>
          rw [List.getD_cons_succ]
          exact le_trans hx (h2 k (by simpa using hk))

/-
`needleman_wunsch_algorithm(minimize, alignment_cal)` — the score matrix.

The numpy matrix `H` of shape `(|A|+1) × (|B|+1)` is built row by row:
row 0 is `np.arange(0, sign*cols, sign)` (i.e. `H[0][j] = sign*j`),
column 0 is `sign*i`, and each interior cell takes
`scores[best_action]` for `scores = [H[i-1][j-1]+score(a,b),
H[i-1][j]+score('-',b), H[i][j-1]+score(a,'-')]` and `best_action`
the first extremal index (`np.argmin` when `minimize` else `np.argmax`).
`nwRowGo` computes one row from the previous row (as a function of the
column index); `nwH` ties the rows together.  On indices beyond the
numpy shape the functions are still total (padding reads of the
sequences return `' '`); all theorems about the program restrict to
in-range indices.
-/

/-- One row (`row = i+1`) of the Needleman–Wunsch matrix: `prev` is row
`i` as a function of the column, `first` is the column-0 boundary value
`sign*(i+1)`, `a = A[i]`. -/
def nwRowGo (sc : ScoringSystem) (mz : Bool) (a : Char) (B : List Char)
    (prev : Nat → Int) (first : Int) : Nat → Int
  | 0 => first
  | j + 1 =>
    let b := B.getD j ' '
    let scores := [prev j + sc.score a b,
                   prev (j + 1) + sc.score gapChar b,
                   nwRowGo sc mz a B prev first j + sc.score a gapChar]
    scores.getD (if mz then argminIdx scores else argmaxIdx scores) 0

/-- `H` of `needleman_wunsch_algorithm`: `sc` is the scoring system
selected by `minimize` (`edit_cost_sys` when minimizing, `scoring_sys`
otherwise), `mz` the `minimize` flag, `sign` is `-1` when
`alignment_cal` else `1`. -/
def nwH (sc : ScoringSystem) (mz : Bool) (sign : Int) (A B : List Char) :
    Nat → Nat → Int
  | 0 => fun j => sign * (j : Int)
  | i + 1 => nwRowGo sc mz (A.getD i ' ') B (nwH sc mz sign A B i)
      (sign * ((i : Int) + 1))

/-- The three-candidate list evaluated at interior cell `(i+1, j+1)`:
`[leave_or_replace_letter, delete_indel, insert_indel]`. -/
def nwScoresAt (sc : ScoringSystem) (mz : Bool) (sign : Int)
    (A B : List Char) (i j : Nat) : List Int :=
  let a := A.getD i ' '
  let b := B.getD j ' '
  [nwH sc mz sign A B i j + sc.score a b,
   nwH sc mz sign A B i (j + 1) + sc.score gapChar b,
   nwH sc mz sign A B (i + 1) j + sc.score a gapChar]

/-- `best_action` at interior cell `(i+1, j+1)`. -/
def nwChosen (sc : ScoringSystem) (mz : Bool) (sign : Int)
    (A B : List Char) (i j : Nat) : Nat :=
  if mz then argminIdx (nwScoresAt sc mz sign A B i j)
  else argmaxIdx (nwScoresAt sc mz sign A B i j)

/-- A cell of the traceback matrix: an arrow index into
`traceback_symbols` (`0 ↦ '↖'`, `1 ↦ '↑'`, `2 ↦ '←'`, `3 ↦ '•'`), a
boundary display letter, or the initial empty string of the numpy `U5`
matrix. -/
inductive TCell where
  | arrow (k : Nat)
  | letter (c : Char)
  | blank
deriving DecidableEq

/-- The traceback matrix of `needleman_wunsch_algorithm`: row 0 holds
the letters of `B`, column 0 the letters of `A` (display only), cell
`(0,0)` and cells beyond the numpy shape stay blank, and each interior
cell records the arrow of the chosen action. -/
def nwT (sc : ScoringSystem) (mz : Bool) (sign : Int) (A B : List Char)
    (i j : Nat) : TCell :=
  match i, j with
  | 0, 0 => TCell.blank
  | 0, j + 1 => if j < B.length then TCell.letter (B.getD j ' ') else TCell.blank
  | i + 1, 0 => if i < A.length then TCell.letter (A.getD i ' ') else TCell.blank
  | i + 1, j + 1 =>
    if i < A.length ∧ j < B.length
    then TCell.arrow (nwChosen sc mz sign A B i j)
    else TCell.blank

/-
`smith_waterman_algorithm` — same recurrence with `self.scoring_sys`,
boundary 0, a fourth candidate 0 and `np.argmax` selection.
-/

/-- One row of the Smith–Waterman matrix. -/
def swRowGo (a : Char) (B : List Char) (prev : Nat → Int) : Nat → Int
  | 0 => 0
  | j + 1 =>
    let b := B.getD j ' '
    let scores := [prev j + similarityScoring.score a b,
                   prev (j + 1) + similarityScoring.score gapChar b,
                   swRowGo a B prev j + similarityScoring.score a gapChar,
                   0]
    scores.getD (argmaxIdx scores) 0

/-- `H` of `smith_waterman_algorithm`. -/
def swH (A B : List Char) : Nat → Nat → Int
  | 0 => fun _ => 0
  | i + 1 => swRowGo (A.getD i ' ') B (swH A B i)

/-- The four-candidate list at interior cell `(i+1, j+1)` of the
Smith–Waterman build. -/
def swScoresAt (A B : List Char) (i j : Nat) : List Int :=
  let a := A.getD i ' '
  let b := B.getD j ' '
  [swH A B i j + similarityScoring.score a b,
   swH A B i (j + 1) + similarityScoring.score gapChar b,
   swH A B (i + 1) j + similarityScoring.score a gapChar,
   0]

/-- `best_action` at interior cell `(i+1, j+1)` of the Smith–Waterman
build. -/
def swChosen (A B : List Char) (i j : Nat) : Nat :=
  argmaxIdx (swScoresAt A B i j)

/-- The traceback matrix of `smith_waterman_algorithm`. -/
def swT (A B : List Char) (i j : Nat) : TCell :=
  match i, j with
  | 0, 0 => TCell.blank
  | 0, j + 1 => if j < B.length then TCell.letter (B.getD j ' ') else TCell.blank
  | i + 1, 0 => if i < A.length then TCell.letter (A.getD i ' ') else TCell.blank
  | i + 1, j + 1 =>
    if i < A.length ∧ j < B.length
    then TCell.arrow (swChosen A B i j)
    else TCell.blank

/-- Row-major cell positions of the `(n+1) × (m+1)` matrix, as produced
by flattening and `np.unravel_index`: flat index `k` maps to
`(k / (m+1), k % (m+1))`. -/
def rowMajorPositions (n m : Nat) : List (Nat × Nat) :=
  (List.range ((n + 1) * (m + 1))).map (fun k => (k / (m + 1), k % (m + 1)))

/-- `H.max()` for the Smith–Waterman matrix.  Row 0 of `H` is
identically 0, so seeding the fold with `H[0][0]` computes the maximum
over all cells exactly as `np.max` does. -/
def swMax (A B : List Char) : Int :=
  ((rowMajorPositions A.length B.length).map
    (fun p => swH A B p.1 p.2)).foldl max (swH A B 0 0)

/-- `np.argmax(H, axis=None)`: the flat (row-major) index of the first
cell attaining `H.max()`. -/
def swArgmaxFlat (A B : List Char) : Nat :=
  ((List.range ((A.length + 1) * (B.length + 1))).find?
    (fun k => swH A B (k / (B.length + 1)) (k % (B.length + 1)) == swMax A B)).getD 0

/-- `np.unravel_index(np.argmax(H, axis=None), H.shape)`: the first
position in row-major order whose cell attains `H.max()`. -/
def swMaxPos (A B : List Char) : Nat × Nat :=
  (swArgmaxFlat A B / (B.length + 1), swArgmaxFlat A B % (B.length + 1))

/-
`translateArrow` and the two traceback loops.  The Python loops build
the aligned strings by appending the emitted pair and reversing at the
end; a while-iteration that reads a non-arrow cell makes
`translateArrow` return `None`, which crashes the caller on
`letter_pair[0]` — modelled as `none`.  The loops are replayed with
explicit fuel (the guard is tested before each step, exactly as the
Python `while` does); running out of fuel (a walk longer than the fuel,
in particular a diverging walk) is also `none`.
-/

/-- `translateArrow(symbol, position)`: decode one arrow, returning the
emitted letter pair and the updated position.  Non-arrow cells (the
`'•'` stop glyph, boundary display letters, the empty string) fall
through every branch and produce `none` (Python returns `None` and the
caller crashes).  Note the Python decrements `position` and then indexes
with it; for arrow cells the walk only ever does this with positive
coordinates, so the truncated `Nat` subtraction matches the source. -/
def translateArrow (A B : List Char) (cell : TCell) (i j : Nat) :
    Option ((Char × Char) × Nat × Nat) :=
  match cell with
  | TCell.arrow 0 => some ((A.getD (i - 1) ' ', B.getD (j - 1) ' '), i - 1, j - 1)
  | TCell.arrow 1 => some ((A.getD (i - 1) ' ', gapChar), i - 1, j)
  | TCell.arrow 2 => some ((gapChar, B.getD (j - 1) ' '), i, j - 1)
  | _ => none

/-- The loop of `_tracebackGlobal`: `while all(x != 0 for x in
position)` — i.e. it stops as soon as `i = 0` or `j = 0`.  Returns the
stop position together with the (reversed) collected strings. -/
def tbGlobalGo (A B : List Char) (T : Nat → Nat → TCell) :
    Nat → Nat → Nat → List Char → List Char →
    Option ((Nat × Nat) × List Char × List Char)
  | 0, i, j, accA, accB =>
    if i = 0 ∨ j = 0 then some ((i, j), accA.reverse, accB.reverse)
    else none
  | fuel + 1, i, j, accA, accB =>
    if i = 0 ∨ j = 0 then some ((i, j), accA.reverse, accB.reverse)
    else
      match translateArrow A B (T i j) i j with
      | none => none
      | some ((ca, cb), i', j') =>
        tbGlobalGo A B T fuel i' j' (accA ++ [ca]) (accB ++ [cb])

/-- The loop of `_tracebackLocal`: `while result_matrix[i][j] != 0`. -/
def tbLocalGo (A B : List Char) (H : Nat → Nat → Int) (T : Nat → Nat → TCell) :
    Nat → Nat → Nat → List Char → List Char →
    Option ((Nat × Nat) × List Char × List Char)
  | 0, i, j, accA, accB =>
    if H i j = 0 then some ((i, j), accA.reverse, accB.reverse)
    else none
  | fuel + 1, i, j, accA, accB =>
    if H i j = 0 then some ((i, j), accA.reverse, accB.reverse)
    else
      match translateArrow A B (T i j) i j with
      | none => none
      | some ((ca, cb), i', j') =>
        tbLocalGo A B H T fuel i' j' (accA ++ [ca]) (accB ++ [cb])

/-
The four public operations (`load_csv=False`, so the default scoring
regimes are in effect).  `global_alignment` builds the matrix with
`minimize=False, alignment_cal=True` (similarity scoring, sign -1) and
replays `_tracebackGlobal` from `score_pos = (n, m)`; `local_alignment`
builds the Smith–Waterman matrix and replays `_tracebackLocal` from the
row-major argmax position.  The replays are run with fuel `n + m`,
which bounds any terminating walk (each step decreases `i + j`).
-/

/-- `_tracebackGlobal` as called by `global_alignment`, also exposing
the position at which the walk stopped. -/
def global_alignmentFull (A B : List Char) :
    Option ((Nat × Nat) × List Char × List Char) :=
  tbGlobalGo A B (nwT similarityScoring false (-1) A B)
    (A.length + B.length) A.length B.length [] []

/-- `global_alignment()`: the aligned pair returned to the caller. -/
def global_alignment (A B : List Char) : Option (List Char × List Char) :=
  (global_alignmentFull A B).map (fun r => r.2)

/-- The score printed by `global_alignment` (`H[-1][-1]` of its build). -/
def globalScore (A B : List Char) : Int :=
  nwH similarityScoring false (-1) A B A.length B.length

/-- `_tracebackLocal` as called by `local_alignment`, also exposing the
position at which the walk stopped. -/
def local_alignmentFull (A B : List Char) :
    Option ((Nat × Nat) × List Char × List Char) :=
  tbLocalGo A B (swH A B) (swT A B) (A.length + B.length)
    (swMaxPos A B).1 (swMaxPos A B).2 [] []

/-- `local_alignment()`: the aligned pair returned to the caller. -/
def local_alignment (A B : List Char) : Option (List Char × List Char) :=
  (local_alignmentFull A B).map (fun r => r.2)

/-- The score printed by `local_alignment` (`H.max()`). -/
def localScore (A B : List Char) : Int := swMax A B

/-- `similarity()`: `needleman_wunsch_algorithm(minimize=False,
alignment_cal=False)`, returning `H[-1][-1]`. -/
def similarity (A B : List Char) : Int :=
  nwH similarityScoring false 1 A B A.length B.length

/-- `edit_distance()`: `needleman_wunsch_algorithm(minimize=True,
alignment_cal=False)`, returning `H[-1][-1]`. -/
def edit_distance (A B : List Char) : Int :=
  nwH editCostScoring true 1 A B A.length B.length

/- Selection lemmas: the value picked by the first-extremal index is the
extremum of the candidate list. -/

theorem getD_argmax3 (d u l : Int) :
    [d, u, l].getD (argmaxIdx [d, u, l]) 0 = max d (max u l) := by
  by_cases h1 : u < l <;>
  by_cases h2 : d < l <;>
  by_cases h3 : d < u <;>
  simp only [argmaxIdx, List.getD_cons_zero, List.getD_cons_succ, h1, h2, h3,
    if_true, if_false, ite_true, ite_false] <;>
  rw [max_def, max_def] <;> split_ifs <;> omega

theorem getD_argmin3 (d u l : Int) :
    [d, u, l].getD (argminIdx [d, u, l]) 0 = min d (min u l) := by
  by_cases h1 : l < u <;>
  by_cases h2 : l < d <;>
  by_cases h3 : u < d <;>
  simp only [argminIdx, List.getD_cons_zero, List.getD_cons_succ, h1, h2, h3,
    if_true, if_false, ite_true, ite_false] <;>
  rw [min_def, min_def] <;> split_ifs <;> omega

theorem getD_argmax4 (d u l z : Int) :
    [d, u, l, z].getD (argmaxIdx [d, u, l, z]) 0 = max d (max u (max l z)) := by
  by_cases h1 : l < z <;>
  by_cases h2 : u < z <;>
  by_cases h3 : u < l <;>
  by_cases h4 : d < z <;>
  by_cases h5 : d < l <;>
  by_cases h6 : d < u <;>
  simp only [argmaxIdx, List.getD_cons_zero, List.getD_cons_succ, h1, h2, h3, h4, h5, h6,
    if_true, if_false, ite_true, ite_false] <;>
  rw [max_def, max_def, max_def] <;> split_ifs <;> omega

/- Shape of the Needleman–Wunsch and Smith–Waterman matrices: boundary
rows/columns and the interior recurrence. -/

theorem nwH_zero_left (sc : ScoringSystem) (mz : Bool) (sign : Int)
    (A B : List Char) (j : Nat) :
    nwH sc mz sign A B 0 j = sign * (j : Int) := rfl

theorem nwH_zero_right (sc : ScoringSystem) (mz : Bool) (sign : Int)
    (A B : List Char) (i : Nat) :
    nwH sc mz sign A B i 0 = sign * (i : Int) := by
  cases i with
  | zero => rfl
  | succ i =>
    show sign * ((i : Int) + 1) = sign * ((i + 1 : Nat) : Int)
    push_cast
    ring

theorem nwH_succ_succ (sc : ScoringSystem) (mz : Bool) (sign : Int)
    (A B : List Char) (i j : Nat) :
    nwH sc mz sign A B (i + 1) (j + 1) =
      (nwScoresAt sc mz sign A B i j).getD (nwChosen sc mz sign A B i j) 0 := by
  cases mz <;> rfl

theorem nwH_eq_max (sc : ScoringSystem) (sign : Int) (A B : List Char) (i j : Nat) :
    nwH sc false sign A B (i + 1) (j + 1) =
      max (nwH sc false sign A B i j + sc.score (A.getD i ' ') (B.getD j ' '))
        (max (nwH sc false sign A B i (j + 1) + sc.score gapChar (B.getD j ' '))
          (nwH sc false sign A B (i + 1) j + sc.score (A.getD i ' ') gapChar)) := by
  rw [nwH_succ_succ]
  exact getD_argmax3 _ _ _

theorem nwH_eq_min (sc : ScoringSystem) (sign : Int) (A B : List Char) (i j : Nat) :
    nwH sc true sign A B (i + 1) (j + 1) =
      min (nwH sc true sign A B i j + sc.score (A.getD i ' ') (B.getD j ' '))
        (min (nwH sc true sign A B i (j + 1) + sc.score gapChar (B.getD j ' '))
          (nwH sc true sign A B (i + 1) j + sc.score (A.getD i ' ') gapChar)) := by
  rw [nwH_succ_succ]
  exact getD_argmin3 _ _ _

theorem swH_zero_left (A B : List Char) (j : Nat) : swH A B 0 j = 0 := rfl

theorem swH_zero_right (A B : List Char) (i : Nat) : swH A B i 0 = 0 := by
  cases i <;> rfl

theorem swH_succ_succ (A B : List Char) (i j : Nat) :
    swH A B (i + 1) (j + 1) =
      (swScoresAt A B i j).getD (swChosen A B i j) 0 := rfl

theorem swH_eq_max (A B : List Char) (i j : Nat) :
    swH A B (i + 1) (j + 1) =
      max (swH A B i j + similarityScoring.score (A.getD i ' ') (B.getD j ' '))
        (max (swH A B i (j + 1) + similarityScoring.score gapChar (B.getD j ' '))
          (max (swH A B (i + 1) j + similarityScoring.score (A.getD i ' ') gapChar)
            0)) := by
  rw [swH_succ_succ]
  exact getD_argmax4 _ _ _ _

/- Elementary facts about the two default scoring regimes. -/

theorem simScore_le_one (x y : Char) : similarityScoring.score x y ≤ 1 := by
  unfold ScoringSystem.score similarityScoring
  split_ifs <;> norm_num

theorem simScore_gap_left (y : Char) : similarityScoring.score gapChar y = -1 := by
  simp [ScoringSystem.score, similarityScoring]

theorem simScore_gap_right (x : Char) : similarityScoring.score x gapChar = -1 := by
  simp [ScoringSystem.score, similarityScoring]

theorem simScore_self (a : Char) (h : a ≠ gapChar) :
    similarityScoring.score a a = 1 := by
  simp [ScoringSystem.score, similarityScoring, h]

theorem editScore_nonneg (x y : Char) : 0 ≤ editCostScoring.score x y := by
  unfold ScoringSystem.score editCostScoring
  split_ifs <;> norm_num

theorem editScore_self (a : Char) (h : a ≠ gapChar) :
    editCostScoring.score a a = 0 := by
  simp [ScoringSystem.score, editCostScoring, h]

theorem ScoringSystem.score_symm (s : ScoringSystem) (x y : Char) :
    s.score x y = s.score y x := by
  by_cases h3 : x = y
  · subst h3; rfl
  · by_cases h1 : x = gapChar <;> by_cases h2 : y = gapChar <;>
      simp [ScoringSystem.score, h1, h2, h3, Ne.symm h3]

/- Global bounds on the matrices.  `nwH_sim_ub`/`nwH_glob_ub` bound
every similarity-scored cell from above (any alignment of an `i`- and a
`j`-prefix has at most `min i j` matches at `+1`; with the negative
boundary ramp each unmatched position costs `-1`); the `diag_ge` lemmas
bound the diagonal from below for equal gap-free sequences. -/

theorem nwH_sim_ub_aux (A B : List Char) :
    ∀ N i j, i + j ≤ N →
      nwH similarityScoring false 1 A B i j ≤ ((max i j : Nat) : Int) := by
  intro N
  induction N with
  | zero =>
    intro i j h
    have hi : i = 0 := by omega
    have hj : j = 0 := by omega
    subst hi; subst hj
    simp [nwH_zero_left]
  | succ N ih =>
    intro i j h
    match i, j with
    | 0, j => rw [nwH_zero_left]; omega
    | i + 1, 0 => rw [nwH_zero_right]; omega
    | i + 1, j + 1 =>
      rw [nwH_eq_max, simScore_gap_left, simScore_gap_right]
      have h1 := ih i j (by omega)
      have h2 := ih i (j + 1) (by omega)
      have h3 := ih (i + 1) j (by omega)
      have hs := simScore_le_one (A.getD i ' ') (B.getD j ' ')
      omega

theorem nwH_sim_ub (A B : List Char) (i j : Nat) :
    nwH similarityScoring false 1 A B i j ≤ ((max i j : Nat) : Int) :=
  nwH_sim_ub_aux A B (i + j) i j le_rfl

theorem nwH_glob_ub_aux (A B : List Char) :
    ∀ N i j, i + j ≤ N →
      nwH similarityScoring false (-1) A B i j ≤
        2 * ((min i j : Nat) : Int) - ((max i j : Nat) : Int) := by
  intro N
  induction N with
  | zero =>
    intro i j h
    have hi : i = 0 := by omega
    have hj : j = 0 := by omega
    subst hi; subst hj
    simp [nwH_zero_left]
  | succ N ih =>
    intro i j h
    match i, j with
    | 0, j => rw [nwH_zero_left]; omega
    | i + 1, 0 => rw [nwH_zero_right]; omega
    | i + 1, j + 1 =>
      rw [nwH_eq_max, simScore_gap_left, simScore_gap_right]
      have h1 := ih i j (by omega)
      have h2 := ih i (j + 1) (by omega)
      have h3 := ih (i + 1) j (by omega)
      have hs := simScore_le_one (A.getD i ' ') (B.getD j ' ')
      omega

theorem nwH_glob_ub (A B : List Char) (i j : Nat) :
    nwH similarityScoring false (-1) A B i j ≤
      2 * ((min i j : Nat) : Int) - ((max i j : Nat) : Int) :=
  nwH_glob_ub_aux A B (i + j) i j le_rfl

theorem getD_mem_of_lt (A : List Char) (i : Nat) (h : i < A.length) :
    A.getD i ' ' ∈ A := by
  rw [List.getD_eq_getElem A ' ' h]
  exact List.getElem_mem h

theorem nwH_sim_diag_ge (A : List Char) (hA : gapChar ∉ A) :
    ∀ i, i ≤ A.length → (i : Int) ≤ nwH similarityScoring false 1 A A i i := by
  intro i
  induction i with
  | zero => intro _; simp [nwH_zero_left]
  | succ i ih =>
    intro hi
    rw [nwH_eq_max]
    have hne : A.getD i ' ' ≠ gapChar :=
      fun h => hA (h ▸ getD_mem_of_lt A i (by omega))
    rw [simScore_self _ hne]
    have h1 := ih (by omega)
    omega

theorem nwH_glob_diag_ge (A : List Char) (hA : gapChar ∉ A) :
    ∀ i, i ≤ A.length → (i : Int) ≤ nwH similarityScoring false (-1) A A i i := by
  intro i
  induction i with
  | zero => intro _; simp [nwH_zero_left]
  | succ i ih =>
    intro hi
    rw [nwH_eq_max]
    have hne : A.getD i ' ' ≠ gapChar :=
      fun h => hA (h ▸ getD_mem_of_lt A i (by omega))
    rw [simScore_self _ hne]
    have h1 := ih (by omega)
    omega

theorem nwH_edit_nonneg_aux (A B : List Char) :
    ∀ N i j, i + j ≤ N → 0 ≤ nwH editCostScoring true 1 A B i j := by
  intro N
  induction N with
  | zero =>
    intro i j h
    have hi : i = 0 := by omega
    have hj : j = 0 := by omega
    subst hi; subst hj
    simp [nwH_zero_left]
  | succ N ih =>
    intro i j h
    match i, j with
    | 0, j => rw [nwH_zero_left]; omega
    | i + 1, 0 => rw [nwH_zero_right]; omega
    | i + 1, j + 1 =>
      rw [nwH_eq_min]
      have h1 := ih i j (by omega)
      have h2 := ih i (j + 1) (by omega)
      have h3 := ih (i + 1) j (by omega)
      have s1 := editScore_nonneg (A.getD i ' ') (B.getD j ' ')
      have s2 := editScore_nonneg gapChar (B.getD j ' ')
      have s3 := editScore_nonneg (A.getD i ' ') gapChar
      omega

theorem nwH_edit_nonneg (A B : List Char) (i j : Nat) :
    0 ≤ nwH editCostScoring true 1 A B i j :=
  nwH_edit_nonneg_aux A B (i + j) i j le_rfl

theorem nwH_edit_diag_le (A : List Char) (hA : gapChar ∉ A) :
    ∀ i, i ≤ A.length → nwH editCostScoring true 1 A A i i ≤ 0 := by
  intro i
  induction i with
  | zero => intro _; simp [nwH_zero_left]
  | succ i ih =>
    intro hi
    rw [nwH_eq_min]
    have hne : A.getD i ' ' ≠ gapChar :=
      fun h => hA (h ▸ getD_mem_of_lt A i (by omega))
    rw [editScore_self _ hne]
    have h1 := ih (by omega)
    omega

theorem swH_nonneg (A B : List Char) (i j : Nat) : 0 ≤ swH A B i j := by
  match i, j with
  | 0, j => rw [swH_zero_left]
  | i + 1, 0 => rw [swH_zero_right]
  | i + 1, j + 1 => rw [swH_eq_max]; omega

/- Symmetry of the matrix under swapping the two sequences (the scoring
function is symmetric in both default regimes, and the swap exchanges
the `up` and `left` candidates, which leaves the extremum unchanged). -/

theorem nwH_swap_aux (sc : ScoringSystem) (mz : Bool) (sign : Int)
    (A B : List Char) :
    ∀ N i j, i + j ≤ N →
      nwH sc mz sign A B i j = nwH sc mz sign B A j i := by
  intro N
  induction N with
  | zero =>
    intro i j h
    have hi : i = 0 := by omega
    have hj : j = 0 := by omega
    subst hi; subst hj; rfl
  | succ N ih =>
    intro i j h
    match i, j with
    | 0, j => rw [nwH_zero_left, nwH_zero_right]
    | i + 1, 0 => rw [nwH_zero_left, nwH_zero_right]
    | i + 1, j + 1 =>
      have e1 := ih i j (by omega)
      have e2 := ih i (j + 1) (by omega)
      have e3 := ih (i + 1) j (by omega)
      cases mz with
      | false =>
        rw [nwH_eq_max, nwH_eq_max, ← e1, ← e2, ← e3,
          sc.score_symm (B.getD j ' ') (A.getD i ' '),
          sc.score_symm gapChar (A.getD i ' '),
          sc.score_symm (B.getD j ' ') gapChar]
        omega
      | true =>
        rw [nwH_eq_min, nwH_eq_min, ← e1, ← e2, ← e3,
          sc.score_symm (B.getD j ' ') (A.getD i ' '),
          sc.score_symm gapChar (A.getD i ' '),
          sc.score_symm (B.getD j ' ') gapChar]
        omega

theorem nwH_swap (sc : ScoringSystem) (mz : Bool) (sign : Int)
    (A B : List Char) (i j : Nat) :
    nwH sc mz sign A B i j = nwH sc mz sign B A j i :=
  nwH_swap_aux sc mz sign A B (i + j) i j le_rfl

/- Corner values for equal gap-free sequences. -/

theorem similarity_self (A : List Char) (hA : gapChar ∉ A) :
    similarity A A = (A.length : Int) := by
  unfold similarity
  have hub := nwH_sim_ub A A A.length A.length
  rw [Nat.max_self] at hub
  have hlb := nwH_sim_diag_ge A hA A.length le_rfl
  omega

theorem globalScore_self (A : List Char) (hA : gapChar ∉ A) :
    globalScore A A = (A.length : Int) := by
  unfold globalScore
  have hub := nwH_glob_ub A A A.length A.length
  rw [Nat.max_self, Nat.min_self] at hub
  have hlb := nwH_glob_diag_ge A hA A.length le_rfl
  omega

theorem edit_distance_self (A : List Char) (hA : gapChar ∉ A) :
    edit_distance A A = 0 := by
  unfold edit_distance
  have h1 := nwH_edit_diag_le A hA A.length le_rfl
  have h2 := nwH_edit_nonneg A A A.length A.length
  omega

/- Fold/argmax facts about `H.max()` and its position. -/

theorem le_foldl_max (l : List Int) (c : Int) : c ≤ l.foldl max c := by
  induction l generalizing c with
  | nil => exact le_rfl
  | cons x xs ih =>
    rw [List.foldl_cons]
    exact le_trans (le_max_left c x) (ih (max c x))

theorem foldl_max_const (l : List Int) (c : Int) (h : ∀ x ∈ l, x ≤ c) :
    l.foldl max c = c := by
  induction l with
  | nil => rfl
  | cons x xs ih =>
    rw [List.foldl_cons, max_eq_left (h x (by simp))]
    exact ih fun y hy => h y (by simp [hy])

theorem swMax_nonneg (A B : List Char) : 0 ≤ swMax A B := by
  unfold swMax
  rw [swH_zero_left]
  exact le_foldl_max _ 0

theorem swMax_empty (A B : List Char) (h : A = [] ∨ B = []) : swMax A B = 0 := by
  unfold swMax
  rw [swH_zero_left]
  apply foldl_max_const
  intro x hx
  obtain ⟨p, hp, rfl⟩ := List.mem_map.1 hx
  unfold rowMajorPositions at hp
  obtain ⟨k, hk, rfl⟩ := List.mem_map.1 hp
  rcases h with h | h
  · subst h
    rw [List.mem_range] at hk
    simp only [List.length_nil, Nat.zero_add, Nat.one_mul] at hk
    have hdiv : k / (B.length + 1) = 0 := Nat.div_eq_of_lt (by omega)
    show swH [] B (k / (B.length + 1)) (k % (B.length + 1)) ≤ 0
    rw [hdiv, swH_zero_left]
  · subst h
    have hmod : k % (List.length ([] : List Char) + 1) = 0 := Nat.mod_one k
    show swH A [] (k / _) (k % (List.length ([] : List Char) + 1)) ≤ 0
    rw [hmod, swH_zero_right]

theorem swArgmaxFlat_empty (A B : List Char) (h : A = [] ∨ B = []) :
    swArgmaxFlat A B = 0 := by
  unfold swArgmaxFlat
  have hpos : 0 < (A.length + 1) * (B.length + 1) :=
    Nat.mul_pos (Nat.succ_pos _) (Nat.succ_pos _)
  obtain ⟨c, hc⟩ : ∃ c, (A.length + 1) * (B.length + 1) = c + 1 :=
    ⟨(A.length + 1) * (B.length + 1) - 1, by omega⟩
  rw [hc, List.range_succ_eq_map, List.find?_cons_of_pos]
  · rfl
  · simp [Nat.zero_div, Nat.zero_mod, swH_zero_left, swMax_empty A B h]

theorem swMaxPos_bounds (A B : List Char) :
    (swMaxPos A B).1 ≤ A.length ∧ (swMaxPos A B).2 ≤ B.length := by
  unfold swMaxPos
  constructor
  · show swArgmaxFlat A B / (B.length + 1) ≤ A.length
    unfold swArgmaxFlat
    cases hfind : (List.range ((A.length + 1) * (B.length + 1))).find?
        (fun k => swH A B (k / (B.length + 1)) (k % (B.length + 1)) == swMax A B) with
    | none => simp [hfind, Nat.zero_div]
    | some k =>
      have hk : k ∈ List.range ((A.length + 1) * (B.length + 1)) :=
        List.mem_of_find?_eq_some hfind
      rw [List.mem_range] at hk
      have : k / (B.length + 1) < A.length + 1 :=
        Nat.div_lt_of_lt_mul (by rw [Nat.mul_comm] at hk; exact hk)
      simp only [hfind, Option.getD_some]
      omega
  · show swArgmaxFlat A B % (B.length + 1) ≤ B.length
    have := Nat.mod_lt (swArgmaxFlat A B) (y := B.length + 1) (by omega)
    omega

theorem local_alignmentFull_empty (A B : List Char) (h : A = [] ∨ B = []) :
    local_alignmentFull A B = some ((0, 0), [], []) := by
  unfold local_alignmentFull swMaxPos
  rw [swArgmaxFlat_empty A B h]
  rw [Nat.zero_div, Nat.zero_mod]
  cases hf : A.length + B.length with
  | zero => rw [tbLocalGo, if_pos (swH_zero_left A B 0)]; rfl
  | succ f => rw [tbLocalGo, if_pos (swH_zero_left A B 0)]; rfl

theorem global_alignmentFull_empty (A B : List Char) (h : A = [] ∨ B = []) :
    global_alignmentFull A B = some ((A.length, B.length), [], []) := by
  unfold global_alignmentFull
  have hz : A.length = 0 ∨ B.length = 0 := by
    rcases h with h | h <;> simp [h]
  cases hf : A.length + B.length with
  | zero => rw [tbGlobalGo, if_pos hz]; rfl
  | succ f => rw [tbGlobalGo, if_pos hz]; rfl

/- Interior traceback cells hold genuine arrows, and the replay steps
strictly decrease `i + j`, so fuel `|A| + |B|` suffices. -/

theorem nwScoresAt_ne_nil (sc : ScoringSystem) (mz : Bool) (sign : Int)
    (A B : List Char) (i j : Nat) : nwScoresAt sc mz sign A B i j ≠ [] := by
  simp [nwScoresAt]

theorem nwScoresAt_length (sc : ScoringSystem) (mz : Bool) (sign : Int)
    (A B : List Char) (i j : Nat) : (nwScoresAt sc mz sign A B i j).length = 3 := rfl

theorem swScoresAt_ne_nil (A B : List Char) (i j : Nat) :
    swScoresAt A B i j ≠ [] := by
  simp [swScoresAt]

theorem swScoresAt_length (A B : List Char) (i j : Nat) :
    (swScoresAt A B i j).length = 4 := rfl

theorem nwChosen_lt_three (sc : ScoringSystem) (mz : Bool) (sign : Int)
    (A B : List Char) (i j : Nat) : nwChosen sc mz sign A B i j < 3 := by
  cases mz with
  | false =>
    have h := (argmaxIdx_spec _ (nwScoresAt_ne_nil sc false sign A B i j)).1
    rw [nwScoresAt_length] at h
    simpa [nwChosen] using h
  | true =>
    have h := (argminIdx_spec _ (nwScoresAt_ne_nil sc true sign A B i j)).1
    rw [nwScoresAt_length] at h
    simpa [nwChosen] using h

theorem swChosen_lt_four (A B : List Char) (i j : Nat) :
    swChosen A B i j < 4 := by
  have h := (argmaxIdx_spec _ (swScoresAt_ne_nil A B i j)).1
  rw [swScoresAt_length] at h
  simpa [swChosen] using h

theorem nwT_interior (sc : ScoringSystem) (mz : Bool) (sign : Int)
    (A B : List Char) (i j : Nat) (hi : i < A.length) (hj : j < B.length) :
    nwT sc mz sign A B (i + 1) (j + 1) =
      TCell.arrow (nwChosen sc mz sign A B i j) := by
  show (if i < A.length ∧ j < B.length
        then TCell.arrow (nwChosen sc mz sign A B i j) else TCell.blank) = _
  rw [if_pos ⟨hi, hj⟩]

theorem swT_interior (A B : List Char) (i j : Nat)
    (hi : i < A.length) (hj : j < B.length) :
    swT A B (i + 1) (j + 1) = TCell.arrow (swChosen A B i j) := by
  show (if i < A.length ∧ j < B.length
        then TCell.arrow (swChosen A B i j) else TCell.blank) = _
  rw [if_pos ⟨hi, hj⟩]

theorem translateArrow_diag (A B : List Char) (i j : Nat) :
    translateArrow A B (TCell.arrow 0) i j =
      some ((A.getD (i - 1) ' ', B.getD (j - 1) ' '), i - 1, j - 1) := rfl

theorem translateArrow_up (A B : List Char) (i j : Nat) :
    translateArrow A B (TCell.arrow 1) i j =
      some ((A.getD (i - 1) ' ', gapChar), i - 1, j) := rfl

theorem translateArrow_left (A B : List Char) (i j : Nat) :
    translateArrow A B (TCell.arrow 2) i j =
      some ((gapChar, B.getD (j - 1) ' '), i, j - 1) := rfl

theorem tbGlobalGo_isSome (sc : ScoringSystem) (mz : Bool) (sign : Int)
    (A B : List Char) :
    ∀ fuel i j accA accB, i ≤ A.length → j ≤ B.length → i + j ≤ fuel →
      (tbGlobalGo A B (nwT sc mz sign A B) fuel i j accA accB).isSome = true := by
  intro fuel
  induction fuel with
  | zero =>
    intro i j accA accB hi hj hf
    rw [tbGlobalGo, if_pos (by omega : i = 0 ∨ j = 0)]
    rfl
  | succ fuel ih =>
    intro i j accA accB hi hj hf
    by_cases h0 : i = 0 ∨ j = 0
    · rw [tbGlobalGo, if_pos h0]; rfl
    · obtain ⟨i', rfl⟩ : ∃ i', i = i' + 1 := ⟨i - 1, by omega⟩
      obtain ⟨j', rfl⟩ : ∃ j', j = j' + 1 := ⟨j - 1, by omega⟩
      rw [tbGlobalGo, if_neg h0,
        nwT_interior sc mz sign A B i' j' (by omega) (by omega)]
      have hk := nwChosen_lt_three sc mz sign A B i' j'
      have hk3 : nwChosen sc mz sign A B i' j' = 0 ∨
          nwChosen sc mz sign A B i' j' = 1 ∨
          nwChosen sc mz sign A B i' j' = 2 := by omega
      rcases hk3 with h | h | h <;> rw [h]
      · rw [translateArrow_diag]
        exact ih i' j' _ _ (by omega) (by omega) (by omega)
      · rw [translateArrow_up]
        exact ih i' (j' + 1) _ _ (by omega) (by omega) (by omega)
      · rw [translateArrow_left]
        exact ih (i' + 1) j' _ _ (by omega) (by omega) (by omega)

theorem tbLocalGo_isSome (A B : List Char) :
    ∀ fuel i j accA accB, i ≤ A.length → j ≤ B.length → i + j ≤ fuel →
      (tbLocalGo A B (swH A B) (swT A B) fuel i j accA accB).isSome = true := by
  intro fuel
  induction fuel with
  | zero =>
    intro i j accA accB hi hj hf
    have hi0 : i = 0 := by omega
    have hj0 : j = 0 := by omega
    subst hi0; subst hj0
    rw [tbLocalGo, if_pos (swH_zero_left A B 0)]
    rfl
  | succ fuel ih =>
    intro i j accA accB hi hj hf
    by_cases hH : swH A B i j = 0
    · rw [tbLocalGo, if_pos hH]; rfl
    · have hi0 : i ≠ 0 := fun h => hH (h ▸ swH_zero_left A B j)
      have hj0 : j ≠ 0 := fun h => hH (h ▸ swH_zero_right A B i)
      obtain ⟨i', rfl⟩ : ∃ i', i = i' + 1 := ⟨i - 1, by omega⟩
      obtain ⟨j', rfl⟩ : ∃ j', j = j' + 1 := ⟨j - 1, by omega⟩
      rw [tbLocalGo, if_neg hH,
        swT_interior A B i' j' (by omega) (by omega)]
      have hk := swChosen_lt_four A B i' j'
      have hknot3 : swChosen A B i' j' ≠ 3 := by
        intro h3
        apply hH
        rw [swH_succ_succ, h3]
        rfl
      have hk3 : swChosen A B i' j' = 0 ∨ swChosen A B i' j' = 1 ∨
          swChosen A B i' j' = 2 := by omega
      rcases hk3 with h | h | h <;> rw [h]
      · rw [translateArrow_diag]
        exact ih i' j' _ _ (by omega) (by omega) (by omega)
      · rw [translateArrow_up]
        exact ih i' (j' + 1) _ _ (by omega) (by omega) (by omega)
      · rw [translateArrow_left]
        exact ih (i' + 1) j' _ _ (by omega) (by omega) (by omega)

/- Boundary ramps versus accumulated gap scores (spec §4.2): the cost of
`j` consecutive insert-gap operations is the sum of `scoringFn(gap, b_k)`
over the first `j` letters of `B`, and symmetrically for columns. -/

/-- Sum of `j` applications of `scoringFn(gap, b_k)` over `b_1 … b_j`. -/
def gapRampRow (sc : ScoringSystem) (B : List Char) (j : Nat) : Int :=
  ((B.take j).map (fun b => sc.score gapChar b)).sum

/-- Sum of `i` applications of `scoringFn(a_k, gap)` over `a_1 … a_i`. -/
def gapRampCol (sc : ScoringSystem) (A : List Char) (i : Nat) : Int :=
  ((A.take i).map (fun a => sc.score a gapChar)).sum

theorem editScore_gap_left (y : Char) : editCostScoring.score gapChar y = 1 := by
  simp [ScoringSystem.score, editCostScoring]

theorem editScore_gap_right (x : Char) : editCostScoring.score x gapChar = 1 := by
  simp [ScoringSystem.score, editCostScoring]

theorem sum_map_const_val (l : List Char) (f : Char → Int) (c : Int)
    (hf : ∀ b, f b = c) : (l.map f).sum = l.length * c := by
  induction l with
  | nil => simp
  | cons x xs ih =>
    rw [List.map_cons, List.sum_cons, hf, ih, List.length_cons]
    push_cast
    ring

theorem gapRampRow_sim (B : List Char) (j : Nat) (hj : j ≤ B.length) :
    gapRampRow similarityScoring B j = -(j : Int) := by
  unfold gapRampRow
  rw [sum_map_const_val _ _ (-1) simScore_gap_left, List.length_take]
  omega

theorem gapRampCol_sim (A : List Char) (i : Nat) (hi : i ≤ A.length) :
    gapRampCol similarityScoring A i = -(i : Int) := by
  unfold gapRampCol
  rw [sum_map_const_val _ _ (-1) simScore_gap_right, List.length_take]
  omega

theorem gapRampRow_edit (B : List Char) (j : Nat) (hj : j ≤ B.length) :
    gapRampRow editCostScoring B j = (j : Int) := by
  unfold gapRampRow
  rw [sum_map_const_val _ _ 1 editScore_gap_left, List.length_take]
  omega

theorem gapRampCol_edit (A : List Char) (i : Nat) (hi : i ≤ A.length) :
    gapRampCol editCostScoring A i = (i : Int) := by
  unfold gapRampCol
  rw [sum_map_const_val _ _ 1 editScore_gap_right, List.length_take]
  omega

/-- `k` is the position of the first extremal element of `s` (minimum
when `mz`, maximum otherwise): the element at `k` beats-or-ties every
element, and strictly beats every earlier one. -/
def firstExtremalAt (s : List Int) (k : Nat) (mz : Bool) : Prop :=
  k < s.length ∧
  (∀ l < s.length, if mz then s.getD k 0 ≤ s.getD l 0 else s.getD l 0 ≤ s.getD k 0) ∧
  (∀ l < k, if mz then s.getD k 0 < s.getD l 0 else s.getD l 0 < s.getD k 0)

/-
Claims.
-/

/-- Claim C1: the spec says the global traceback replay started from
`(n, m)` stops only when the position reaches exactly `(0, 0)`.  The
code's loop guard is `while all(x != 0 for x in position)`, which exits
as soon as *either* coordinate is 0.  Evaluating the replay on
`A = "AB"`, `B = "B"` (matrix path: diagonal from `(2,1)` to `(1,0)`)
shows the walk halting at position `(1, 0)` — the first coordinate is
still nonzero and no further up-moves are consumed, contradicting the
claimed termination rule. -/
theorem C1_global_traceback_stops_off_origin :
    global_alignmentFull ['A', 'B'] ['B'] = some ((1, 0), ['B'], ['B']) ∧
    ((1, 0) : Nat × Nat) ≠ (0, 0) := by
  constructor
  · decide
  · decide

/-- Claim C2: the spec says the aligned pair returned by
`global_alignment`, with gap symbols removed, reconstructs `A` and `B`,
and in particular for `A = ""`, `B = "ABC"` the pair is `---` / `ABC`.
Because the traceback guard exits as soon as a coordinate is 0, the
replay for `A = ""`, `B = "ABC"` starts at `(0, 3)` and stops
immediately: the code returns the pair `("", "")`, whose second
component with gaps removed is `""`, not `"ABC"`. -/
theorem C2_global_roundtrip_fails :
    global_alignment [] ['A', 'B', 'C'] = some ([], []) ∧
    ([] : List Char).filter (fun c => c ≠ gapChar) ≠ ['A', 'B', 'C'] := by
  constructor
  · decide
  · decide

/-- Claim C3 (as written) is false: `global_alignment` builds its matrix
with `alignment_cal=True` (boundary ramp `-j`), while `similarity()`
builds it with `alignment_cal=False` (boundary ramp `+j`); the two
corner values differ already for `A = "A"`, `B = "B"` — the global
score is `-1` but `similarity` returns `0`. -/
theorem C3_scores_differ :
    ¬ (globalScore ['A'] ['B'] = similarity ['A'] ['B']) := by decide

/-- Claim C3, amended: the score reported by `global_alignment` is the
corner of the maximize build with the negative boundary ramp, and
`similarity()` returns the corner of the maximize build with the
positive boundary ramp; these differ in general, but they agree whenever
the two input sequences are equal and gap-free, where both equal the
common length. -/
theorem C3_amended_scores_agree_on_self (A : List Char) (hA : gapChar ∉ A) :
    globalScore A A = similarity A A ∧ globalScore A A = (A.length : Int) := by
  rw [globalScore_self A hA, similarity_self A hA]
  exact ⟨rfl, rfl⟩

/-- Witness for C3's amended theorem at `A = "XY"`. -/
theorem C3_amended_witness :
    gapChar ∉ ['X', 'Y'] ∧
    (globalScore ['X', 'Y'] ['X', 'Y'] = similarity ['X', 'Y'] ['X', 'Y'] ∧
     globalScore ['X', 'Y'] ['X', 'Y'] = ((['X', 'Y'] : List Char).length : Int)) :=
  ⟨by decide, C3_amended_scores_agree_on_self ['X', 'Y'] (by decide)⟩

/-- Claim C4 (as written) is false for the build used by `similarity()`:
that build is in global boundary mode with similarity scoring, yet its
boundary ramp is `+j` (`alignment_cal=False`) while
`scoringFn(gap, b_k) = -1`, so `H[0][1] = 1 ≠ -1 = scoringFn(gap, b_1)`
already for `B = "A"`, `j = 1`. -/
theorem C4_similarity_ramp_mismatch :
    ¬ (nwH similarityScoring false 1 [] ['A'] 0 1 =
        gapRampRow similarityScoring ['A'] 1) := by decide

/-- Claim C4, amended: the boundary ramps equal the accumulated gap
scores for the two builds whose sign matches their scoring function —
the global-alignment build (similarity scoring, ramp `-j`/`-i`) and the
edit-distance build (edit costs, ramp `+j`/`+i`).  For the
`similarity()` build (maximize with ramp `+j` but gap score `-1`) the
equality fails. -/
theorem C4_amended_boundary_ramps (A B : List Char) (i j : Nat)
    (hi : i ≤ A.length) (hj : j ≤ B.length) :
    (nwH similarityScoring false (-1) A B 0 j = gapRampRow similarityScoring B j ∧
     nwH similarityScoring false (-1) A B i 0 = gapRampCol similarityScoring A i) ∧
    (nwH editCostScoring true 1 A B 0 j = gapRampRow editCostScoring B j ∧
     nwH editCostScoring true 1 A B i 0 = gapRampCol editCostScoring A i) := by
  refine ⟨⟨?_, ?_⟩, ?_, ?_⟩
  · rw [nwH_zero_left, gapRampRow_sim B j hj]; ring
  · rw [nwH_zero_right, gapRampCol_sim A i hi]; ring
  · rw [nwH_zero_left, gapRampRow_edit B j hj]; ring
  · rw [nwH_zero_right, gapRampCol_edit A i hi]; ring

/-- Witness for C4's amended theorem at `A = "A"`, `B = "B"`,
`i = j = 1`. -/
theorem C4_amended_witness :
    (1 ≤ (['A'] : List Char).length ∧ 1 ≤ (['B'] : List Char).length) ∧
    ((nwH similarityScoring false (-1) ['A'] ['B'] 0 1 =
        gapRampRow similarityScoring ['B'] 1 ∧
      nwH similarityScoring false (-1) ['A'] ['B'] 1 0 =
        gapRampCol similarityScoring ['A'] 1) ∧
     (nwH editCostScoring true 1 ['A'] ['B'] 0 1 =
        gapRampRow editCostScoring ['B'] 1 ∧
      nwH editCostScoring true 1 ['A'] ['B'] 1 0 =
        gapRampCol editCostScoring ['A'] 1)) :=
  ⟨⟨by decide, by decide⟩,
   C4_amended_boundary_ramps ['A'] ['B'] 1 1 (by decide) (by decide)⟩

/-- Claim C5: at every interior cell of both DP builds the chosen action
index is the first extremal candidate in the listed order
(diagonal, up, left, and — local mode only — zero): it beats-or-ties all
candidates and strictly beats all earlier ones (`np.argmin`/`np.argmax`
first-occurrence semantics); the matrix takes that candidate's value and
the traceback records the corresponding arrow. -/
theorem C5_first_extremal_tie_break (sc : ScoringSystem) (mz : Bool)
    (sign : Int) (A B : List Char) (i j : Nat)
    (hi : i < A.length) (hj : j < B.length) :
    (firstExtremalAt (nwScoresAt sc mz sign A B i j)
        (nwChosen sc mz sign A B i j) mz ∧
      nwH sc mz sign A B (i + 1) (j + 1) =
        (nwScoresAt sc mz sign A B i j).getD (nwChosen sc mz sign A B i j) 0 ∧
      nwT sc mz sign A B (i + 1) (j + 1) =
        TCell.arrow (nwChosen sc mz sign A B i j)) ∧
    (firstExtremalAt (swScoresAt A B i j) (swChosen A B i j) false ∧
      swH A B (i + 1) (j + 1) =
        (swScoresAt A B i j).getD (swChosen A B i j) 0 ∧
      swT A B (i + 1) (j + 1) = TCell.arrow (swChosen A B i j)) := by
  refine ⟨⟨?_, nwH_succ_succ sc mz sign A B i j,
      nwT_interior sc mz sign A B i j hi hj⟩,
    ⟨?_, swH_succ_succ A B i j, swT_interior A B i j hi hj⟩⟩
  · cases mz with
    | false =>
      obtain ⟨h1, h2, h3⟩ :=
        argmaxIdx_spec _ (nwScoresAt_ne_nil sc false sign A B i j)
      exact ⟨h1, fun l hl => h2 l hl, fun l hl => h3 l hl⟩
    | true =>
      obtain ⟨h1, h2, h3⟩ :=
        argminIdx_spec _ (nwScoresAt_ne_nil sc true sign A B i j)
      exact ⟨h1, fun l hl => h2 l hl, fun l hl => h3 l hl⟩
  · obtain ⟨h1, h2, h3⟩ := argmaxIdx_spec _ (swScoresAt_ne_nil A B i j)
    exact ⟨h1, fun l hl => h2 l hl, fun l hl => h3 l hl⟩

/-- Witness for C5 at `A = "A"`, `B = "B"`, cell `(1, 1)` of the
global-alignment build and the local build. -/
theorem C5_witness :
    (0 < (['A'] : List Char).length ∧ 0 < (['B'] : List Char).length) ∧
    ((firstExtremalAt (nwScoresAt similarityScoring false (-1) ['A'] ['B'] 0 0)
        (nwChosen similarityScoring false (-1) ['A'] ['B'] 0 0) false ∧
      nwH similarityScoring false (-1) ['A'] ['B'] 1 1 =
        (nwScoresAt similarityScoring false (-1) ['A'] ['B'] 0 0).getD
          (nwChosen similarityScoring false (-1) ['A'] ['B'] 0 0) 0 ∧
      nwT similarityScoring false (-1) ['A'] ['B'] 1 1 =
        TCell.arrow (nwChosen similarityScoring false (-1) ['A'] ['B'] 0 0)) ∧
    (firstExtremalAt (swScoresAt ['A'] ['B'] 0 0) (swChosen ['A'] ['B'] 0 0)
        false ∧
      swH ['A'] ['B'] 1 1 =
        (swScoresAt ['A'] ['B'] 0 0).getD (swChosen ['A'] ['B'] 0 0) 0 ∧
      swT ['A'] ['B'] 1 1 = TCell.arrow (swChosen ['A'] ['B'] 0 0))) :=
  ⟨⟨by decide, by decide⟩,
   C5_first_extremal_tie_break similarityScoring false (-1) ['A'] ['B'] 0 0
     (by decide) (by decide)⟩

/-- Claim C6: in local mode every cell of the Smith–Waterman matrix is
non-negative, its row 0 and column 0 are 0, and the reported local
alignment score (the matrix-wide maximum) is non-negative for every
pair of input sequences. -/
theorem C6_local_matrix_nonneg (A B : List Char) :
    (∀ i j, 0 ≤ swH A B i j) ∧ (∀ j, swH A B 0 j = 0) ∧
    (∀ i, swH A B i 0 = 0) ∧ 0 ≤ localScore A B :=
  ⟨fun i j => swH_nonneg A B i j, fun j => swH_zero_left A B j,
   fun i => swH_zero_right A B i, swMax_nonneg A B⟩

/-- Claim C7: `edit_distance` is symmetric in its two sequences — the
default edit-cost regime (match 0, mismatch 1, gap 1) is a symmetric
scoring function, and swapping the sequences transposes the matrix
while exchanging the up/left candidates, leaving every cell value (and
in particular the corner) unchanged. -/
theorem C7_edit_distance_symm (A B : List Char) :
    edit_distance A B = edit_distance B A := by
  unfold edit_distance
  exact nwH_swap editCostScoring true 1 A B A.length B.length

/-- Claim C8: for every gap-free sequence `A`, `edit_distance A A = 0`
and `similarity A A = |A|` under the default regimes.  (The gap marker
is not a sequence symbol in the spec's data model; a sequence containing
the literal `'-'` would score it as a gap.) -/
theorem C8_self_alignment (A : List Char) (hA : gapChar ∉ A) :
    edit_distance A A = 0 ∧ similarity A A = (A.length : Int) :=
  ⟨edit_distance_self A hA, similarity_self A hA⟩

/-- Witness for C8 at `A = "AB"`. -/
theorem C8_witness :
    gapChar ∉ (['A', 'B'] : List Char) ∧
    (edit_distance ['A', 'B'] ['A', 'B'] = 0 ∧
     similarity ['A', 'B'] ['A', 'B'] = ((['A', 'B'] : List Char).length : Int)) :=
  ⟨by decide, C8_self_alignment ['A', 'B'] (by decide)⟩

/-- Claim C9: all four public operations accept empty input sequences —
when either sequence is empty, both alignment replays return (no crash,
no divergence) with the degenerate empty alignment, and the two scores
are the corner values `max n m` (with the positive boundary ramp of the
non-alignment builds). -/
theorem C9_empty_inputs (A B : List Char) (h : A = [] ∨ B = []) :
    global_alignment A B = some ([], []) ∧
    local_alignment A B = some ([], []) ∧
    similarity A B = ((max A.length B.length : Nat) : Int) ∧
    edit_distance A B = ((max A.length B.length : Nat) : Int) := by
  refine ⟨?_, ?_, ?_, ?_⟩
  · unfold global_alignment
    rw [global_alignmentFull_empty A B h]
    rfl
  · unfold local_alignment
    rw [local_alignmentFull_empty A B h]
    rfl
  · unfold similarity
    rcases h with h | h <;> subst h
    · simp only [List.length_nil]
      rw [nwH_zero_left]
      omega
    · simp only [List.length_nil]
      rw [nwH_zero_right]
      omega
  · unfold edit_distance
    rcases h with h | h <;> subst h
    · simp only [List.length_nil]
      rw [nwH_zero_left]
      omega
    · simp only [List.length_nil]
      rw [nwH_zero_right]
      omega

/-- Witness for C9 at `A = ""`, `B = "XY"`. -/
theorem C9_witness :
    (([] : List Char) = [] ∨ (['X', 'Y'] : List Char) = []) ∧
    (global_alignment [] ['X', 'Y'] = some ([], []) ∧
     local_alignment [] ['X', 'Y'] = some ([], []) ∧
     similarity [] ['X', 'Y'] =
       ((max ([] : List Char).length (['X', 'Y'] : List Char).length : Nat) : Int) ∧
     edit_distance [] ['X', 'Y'] =
       ((max ([] : List Char).length (['X', 'Y'] : List Char).length : Nat) : Int)) :=
  ⟨Or.inl rfl, C9_empty_inputs [] ['X', 'Y'] (Or.inl rfl)⟩

/-- Claim C10: on the matrices actually produced by the two algorithms,
both traceback replays terminate within `n + m` steps — the replays run
with fuel `n + m` and never return `none`: every step of the global walk
reads an interior arrow cell and strictly decreases `i + j`, and the
local walk stops at zero cells (which include all boundary cells). -/
theorem C10_traceback_terminates (A B : List Char) :
    (global_alignmentFull A B).isSome = true ∧
    (local_alignmentFull A B).isSome = true := by
  constructor
  · exact tbGlobalGo_isSome similarityScoring false (-1) A B
      (A.length + B.length) A.length B.length [] [] le_rfl le_rfl le_rfl
  · obtain ⟨h1, h2⟩ := swMaxPos_bounds A B
    exact tbLocalGo_isSome A B (A.length + B.length)
      (swMaxPos A B).1 (swMaxPos A B).2 [] [] h1 h2 (by omega)
